import Mathlib

/-!
Verification of the statsqli time-based blind SQL injection engine
(files src/statsqli/extractor.py, parallel.py, adaptive.py, stats.py),
via a shallow embedding of its pure algorithmic content into Lean.

The timing oracle (`_test_condition`) is abstracted as a boolean-valued
function of the tested predicate; characters are represented by their
integer codepoints; strings by lists of codepoints; floating point
timings by rationals; the square-root function used by the statistics
libraries is passed as a parameter.
-/

namespace StatSqli

/-- The two predicate shapes the extraction engine submits to the oracle
(extractor.py:157 builds `χ(p) >= mid`, extractor.py:194 builds
`χ(p) = test_val`, for the codepoint expression `χ(p)` at one position). -/
inductive Pred where
  | ge (m : Int)
  | eq (m : Int)
deriving DecidableEq, Repr

/-- An oracle for one fixed position: the answer `_test_condition` gives to
each predicate about that position.  Within one `extract_character_binary`
call no predicate is ever submitted twice (the binary search never revisits
a midpoint and the equality candidates are distinct), so a function of the
predicate captures every possible sequence of oracle answers. -/
def PosOracle : Type := Pred → Bool

/-- An oracle for all positions (`position` is 1-indexed, as in the query
template built at extractor.py:149). -/
def Oracle : Type := Nat → PosOracle

/-- The `while low <= high` loop of `extract_character_binary`
(extractor.py:153-163).  `mid = (low + high) // 2`; on a true oracle answer
for `χ >= mid` the loop sets `low = mid + 1`, otherwise `high = mid - 1`;
the final value of `high` is the loop's result.  The loop is embedded with
an explicit fuel argument: each iteration strictly shrinks `high + 1 - low`,
so any fuel at least the initial width makes the embedding agree with the
unbounded loop (the entry point uses width 95 of the range [32, 126]). -/
def binarySearchLoop (oracle : Int → Bool) : Nat → Int → Int → Int
  | 0, _, high => high
  | fuel + 1, low, high =>
    if low ≤ high then
      let mid := (low + high) / 2
      if oracle mid then binarySearchLoop oracle fuel (mid + 1) high
      else binarySearchLoop oracle fuel low (mid - 1)
    else high

/-- Same loop, additionally counting the number of oracle calls
(= loop iterations): each iteration performs exactly one `_test_condition`
call (extractor.py:158). -/
def binarySearchLoopCount (oracle : Int → Bool) : Nat → Int → Int → Int × Nat
  | 0, _, high => (high, 0)
  | fuel + 1, low, high =>
    if low ≤ high then
      let mid := (low + high) / 2
      let r := if oracle mid then binarySearchLoopCount oracle fuel (mid + 1) high
               else binarySearchLoopCount oracle fuel low (mid - 1)
      (r.1, r.2 + 1)
    else (high, 0)

/-- Deduplication keeping first occurrences, as `set()` followed by a sort
behaves on a list of distinct insertion candidates (extractor.py:190). -/
def dedupKeepFirst : List Int → List Int → List Int
  | _, [] => []
  | seen, x :: xs =>
    if seen.contains x then dedupKeepFirst seen xs
    else x :: dedupKeepFirst (x :: seen) xs

/-- Insertion step of a descending insertion sort. -/
def insertDesc (x : Int) : List Int → List Int
  | [] => [x]
  | y :: ys => if y < x then x :: y :: ys else y :: insertDesc x ys

/-- Descending sort, modelling `sorted(..., reverse=True)`
(extractor.py:190). -/
def sortDesc : List Int → List Int
  | [] => []
  | x :: xs => insertDesc x (sortDesc xs)

/-- The candidate list built after the binary search
(extractor.py:175-190): `high` if it is printable, `high + 1` if still at
most 126, `high - 1` if still at least 32; then deduplicated and sorted in
descending order. -/
def candidatesToTest (high : Int) : List Int :=
  let cands :=
    (if 32 ≤ high ∧ high ≤ 126 then [high] else []) ++
    (if high + 1 ≤ 126 then [high + 1] else []) ++
    (if 32 ≤ high - 1 then [high - 1] else [])
  sortDesc (dedupKeepFirst [] cands)

/-- The candidate verification loop (extractor.py:193-196): test equality
predicates in list order, return the first candidate the oracle confirms. -/
def findConfirmed (oracle : PosOracle) : List Int → Option Int
  | [] => none
  | v :: rest =>
    if oracle (Pred.eq v) then some v else findConfirmed oracle rest

/-- Candidate verification with a count of the oracle calls it makes. -/
def findConfirmedCount (oracle : PosOracle) : List Int → Option Int × Nat
  | [] => (none, 0)
  | v :: rest =>
    if oracle (Pred.eq v) then (some v, 1)
    else
      let r := findConfirmedCount oracle rest
      (r.1, r.2 + 1)

/-- Function `extract_character_binary` for one position (extractor.py:126-204),
with the oracle for that position abstracted: run the binary search on
[32, 126], verify candidates `{high, high+1, high-1} ∩ [32, 126]` in
descending order with equality predicates, and if none is confirmed fall
back to `high` when it is printable, `none` otherwise.  The returned
character is represented by its codepoint. -/
def extract_character_binary (oracle : PosOracle) : Option Int :=
  let high := binarySearchLoop (fun m => oracle (Pred.ge m)) 95 32 126
  match findConfirmed oracle (candidatesToTest high) with
  | some v => some v
  | none => if 32 ≤ high ∧ high ≤ 126 then some high else none

/-- Function `extract_character_binary` instrumented with the number of oracle calls
(`_test_condition` invocations) the call performs. -/
def extract_character_binary_count (oracle : PosOracle) : Option Int × Nat :=
  let r := binarySearchLoopCount (fun m => oracle (Pred.ge m)) 95 32 126
  let f := findConfirmedCount oracle (candidatesToTest r.1)
  match f.1 with
  | some v => (some v, r.2 + f.2)
  | none => (if 32 ≤ r.1 ∧ r.1 ≤ 126 then some r.1 else none, r.2 + f.2)

/-- Python `rstrip('\x00\n\r')` (extractor.py:235, parallel.py:116): drop the
trailing run of NUL, LF, CR codepoints. -/
def rstripTerminators (s : List Int) : List Int :=
  (s.reverse.dropWhile (fun c => c == 0 || c == 10 || c == 13)).reverse

/-- The position loop of `extract_string` (extractor.py:222-231): scan
positions `p, p+1, ...` while fuel lasts; stop on a `none` character;
append each character and stop after appending NUL, LF, or CR. -/
def extractStringLoop (oracle : Oracle) : Nat → Nat → List Int
  | _, 0 => []
  | p, fuel + 1 =>
    match extract_character_binary (oracle p) with
    | none => []
    | some c =>
      if c == 0 || c == 10 || c == 13 then [c]
      else c :: extractStringLoop oracle (p + 1) fuel

/-- Function `extract_string` (extractor.py:206-235): extract positions
`1 .. max_length` sequentially, then strip trailing terminators. -/
def extract_string (oracle : Oracle) (max_length : Nat) : List Int :=
  rstripTerminators (extractStringLoop oracle 1 max_length)

/-- The deterministic truthful oracle for a hidden string `s` (given as a
list of codepoints): a threshold predicate `χ(p) ≥ m` is true iff the
codepoint at 1-indexed position `p` is at least `m`, an equality predicate
iff it equals `m`, and every predicate about a position past the end of `s`
is false. -/
def trueOracle (s : List Int) : Oracle := fun p pred =>
  match s.get? (p - 1) with
  | none => false
  | some c =>
    match pred with
    | Pred.ge m => decide (m ≤ c)
    | Pred.eq m => decide (c = m)

/-- The truthful oracle restricted to one position holding codepoint `c`. -/
def truthfulPosOracle (c : Int) : PosOracle := fun pred =>
  match pred with
  | Pred.ge m => decide (m ≤ c)
  | Pred.eq m => decide (c = m)

theorem trueOracle_eq_of_get (s : List Int) (p : Nat) (c : Int)
    (h : s.get? (p - 1) = some c) : trueOracle s p = truthfulPosOracle c := by
  funext pred
  simp only [trueOracle, truthfulPosOracle, h]

theorem trueOracle_past_end (s : List Int) (p : Nat) (h : s.length ≤ p - 1) :
    trueOracle s p = fun _ => false := by
  funext pred
  simp only [trueOracle, List.get?_len_le h]

/-- On the truthful threshold oracle for codepoint `c`, the binary-search
loop returns exactly `c` whenever `c` lies in `[low - 1, high]` and the
fuel covers the width of the search range. -/
theorem binarySearchLoop_truthful (c : Int) :
    ∀ (fuel : Nat) (low high : Int), (high + 1 - low).toNat ≤ fuel →
      low - 1 ≤ c → c ≤ high →
      binarySearchLoop (fun m => decide (m ≤ c)) fuel low high = c := by
  intro fuel
  induction fuel with
  | zero =>
    intro low high hf h1 h2
    simp only [binarySearchLoop]
    omega
  | succ n ih =>
    intro low high hf h1 h2
    simp only [binarySearchLoop]
    split_ifs with hlh hc
    · simp only [decide_eq_true_eq] at hc
      exact ih _ _ (by omega) (by omega) h2
    · simp only [decide_eq_true_eq] at hc
      exact ih _ _ (by omega) h1 (by omega)
    · omega

/-- On the truthful oracle for a printable codepoint `c`, candidate
verification confirms `c` itself. -/
theorem findConfirmed_truthful (c : Int) (h1 : 32 ≤ c) (h2 : c ≤ 126) :
    findConfirmed (truthfulPosOracle c) (candidatesToTest c) = some c := by
  interval_cases c <;> decide

/-- On the truthful oracle for a printable codepoint `c`,
`extract_character_binary` returns exactly `c`. -/
theorem extract_character_binary_truthful (c : Int) (h1 : 32 ≤ c) (h2 : c ≤ 126) :
    extract_character_binary (truthfulPosOracle c) = some c := by
  simp only [extract_character_binary]
  have hge : (fun m => truthfulPosOracle c (Pred.ge m)) = fun m => decide (m ≤ c) := rfl
  rw [hge, binarySearchLoop_truthful c 95 32 126 (by decide) (by omega) h2,
    findConfirmed_truthful c h1 h2]

theorem extract_character_binary_all_false :
    extract_character_binary (fun _ => false) = none := by decide

theorem extract_character_binary_past_end (s : List Int) (p : Nat)
    (h : s.length ≤ p - 1) : extract_character_binary (trueOracle s p) = none := by
  rw [trueOracle_past_end s p h]
  exact extract_character_binary_all_false

theorem drop_cons_of_get (l : List Int) (n : Nat) (c : Int) (h : l.get? n = some c) :
    l.drop n = c :: l.drop (n + 1) := by
  have hn : n < l.length := List.get?_eq_some.mp h |>.choose
  rw [List.drop_eq_getElem_cons hn]
  have hg := List.get?_eq_get hn
  rw [h] at hg
  simp only [List.get_eq_getElem] at hg
  rw [← Option.some.inj hg]

theorem notTerminator_of_printable (c : Int) (h : 32 ≤ c) :
    (c == 0 || c == 10 || c == 13) = false := by
  simp only [Bool.or_eq_false_iff, beq_eq_false_iff_ne, ne_eq]
  omega

/-- With a truthful oracle for an all-printable string, the sequential
position loop starting at position `p` yields the next `fuel` codepoints
of the string. -/
theorem extractStringLoop_truthful (s : List Int)
    (hs : ∀ c ∈ s, 32 ≤ c ∧ c ≤ 126) :
    ∀ (fuel p : Nat), 1 ≤ p →
      extractStringLoop (trueOracle s) p fuel = (s.drop (p - 1)).take fuel := by
  intro fuel
  induction fuel with
  | zero => intro p hp; simp [extractStringLoop]
  | succ n ih =>
    intro p hp
    cases hget : s.get? (p - 1) with
    | none =>
      have hlen : s.length ≤ p - 1 := List.get?_eq_none.mp hget
      rw [List.drop_eq_nil_of_le hlen]
      simp only [extractStringLoop, extract_character_binary_past_end s p hlen,
        List.take_nil]
    | some c =>
      obtain ⟨hc1, hc2⟩ := hs c (List.get?_mem hget)
      have hchar : extract_character_binary (trueOracle s p) = some c := by
        rw [trueOracle_eq_of_get s p c hget]
        exact extract_character_binary_truthful c hc1 hc2
      simp only [extractStringLoop, hchar, notTerminator_of_printable c hc1,
        Bool.false_eq_true, if_false]
      have hp : p - 1 + 1 = p := by omega
      rw [ih (p + 1) (by omega), drop_cons_of_get s (p - 1) c hget, hp,
        List.take_succ_cons, Nat.add_sub_cancel]

/-- Stripping trailing terminators is the identity on all-printable
strings. -/
theorem rstripTerminators_eq_self (s : List Int) (hs : ∀ c ∈ s, 32 ≤ c) :
    rstripTerminators s = s := by
  unfold rstripTerminators
  cases h : s.reverse with
  | nil =>
    have : s = [] := by simpa using congrArg List.reverse h
    simp [this]
  | cons a t =>
    have ha : a ∈ s := by
      have : a ∈ s.reverse := by rw [h]; exact List.mem_cons_self a t
      simpa using this
    rw [List.dropWhile_cons, notTerminator_of_printable a (hs a ha)]
    simp only [Bool.false_eq_true, if_false]
    rw [← h, List.reverse_reverse]

/-- C1: for every hidden string `s` all of whose codepoints lie in
[32, 126], and for the deterministic truthful oracle for `s` (threshold
and equality predicates answered truthfully, positions past the end of
`s` answered false), `extract_string` with `max_length = |s| + k` returns
exactly `s`, for every `k ≥ 0`. -/
theorem extract_string_round_trip (s : List Int) (k : Nat)
    (hs : ∀ c ∈ s, 32 ≤ c ∧ c ≤ 126) :
    extract_string (trueOracle s) (s.length + k) = s := by
  unfold extract_string
  rw [extractStringLoop_truthful s hs (s.length + k) 1 (by omega)]
  simp only [Nat.sub_self, List.drop_zero]
  rw [List.take_of_length_le (by omega)]
  exact rstripTerminators_eq_self s (fun c hc => (hs c hc).1)

/-- Witness for C1 on the concrete hidden string "Hi" = [72, 105] with
`k = 2`. -/
theorem extract_string_round_trip_witness :
    extract_string (trueOracle [72, 105]) ([72, 105].length + 2) = [72, 105] :=
  extract_string_round_trip [72, 105] 2 (by decide)

/-- The value of `high` after the binary search phase of
`extract_character_binary` (extractor.py:143-163). -/
def searchHigh (oracle : PosOracle) : Int :=
  binarySearchLoop (fun m => oracle (Pred.ge m)) 95 32 126

/-- For every oracle, the binary search keeps `high` inside `[31, 126]`:
`low` never drops below 32 and `high` never exceeds its initial 126, so
`high = mid - 1 ≥ low - 1 ≥ 31` throughout. -/
theorem binarySearchLoop_range (oracle : Int → Bool) :
    ∀ (fuel : Nat) (low high : Int), 32 ≤ low → 31 ≤ high → high ≤ 126 →
      31 ≤ binarySearchLoop oracle fuel low high ∧
        binarySearchLoop oracle fuel low high ≤ 126 := by
  intro fuel
  induction fuel with
  | zero => intro low high h1 h2 h3; simp only [binarySearchLoop]; omega
  | succ n ih =>
    intro low high h1 h2 h3
    simp only [binarySearchLoop]
    split_ifs with hlh hc
    · exact ih _ _ (by omega) h2 h3
    · exact ih _ _ h1 (by omega) (by omega)
    · omega

theorem searchHigh_range (oracle : PosOracle) :
    31 ≤ searchHigh oracle ∧ searchHigh oracle ≤ 126 :=
  binarySearchLoop_range _ 95 32 126 (by norm_num) (by norm_num) (by norm_num)

theorem mem_insertDesc (v x : Int) (l : List Int) :
    v ∈ insertDesc x l ↔ v = x ∨ v ∈ l := by
  induction l with
  | nil => simp [insertDesc]
  | cons y ys ih =>
    simp only [insertDesc]
    split_ifs
    · simp [List.mem_cons]
    · simp only [List.mem_cons, ih]
      tauto

theorem mem_sortDesc (v : Int) (l : List Int) : v ∈ sortDesc l ↔ v ∈ l := by
  induction l with
  | nil => simp [sortDesc]
  | cons x xs ih => simp [sortDesc, mem_insertDesc, ih]

theorem mem_dedupKeepFirst (v : Int) (seen l : List Int)
    (h : v ∈ dedupKeepFirst seen l) : v ∈ l := by
  induction l generalizing seen with
  | nil => simp [dedupKeepFirst] at h
  | cons x xs ih =>
    simp only [dedupKeepFirst] at h
    split_ifs at h with hc
    · exact List.mem_cons_of_mem _ (ih _ h)
    · rcases List.mem_cons.mp h with h | h
      · exact h ▸ List.mem_cons_self _ _
      · exact List.mem_cons_of_mem _ (ih _ h)

/-- Every candidate built by extractor.py:175-190 from a `high` in
`[31, 126]` is a printable codepoint. -/
theorem candidatesToTest_bounds (high v : Int) (h31 : 31 ≤ high)
    (h126 : high ≤ 126) (hv : v ∈ candidatesToTest high) : 32 ≤ v ∧ v ≤ 126 := by
  simp only [candidatesToTest, mem_sortDesc] at hv
  have hv2 := mem_dedupKeepFirst _ _ _ hv
  simp only [List.mem_append] at hv2
  rcases hv2 with (h | h) | h
  · by_cases hcond : 32 ≤ high ∧ high ≤ 126
    · rw [if_pos hcond] at h; simp only [List.mem_singleton] at h; omega
    · rw [if_neg hcond] at h; simp at h
  · by_cases hcond : high + 1 ≤ 126
    · rw [if_pos hcond] at h; simp only [List.mem_singleton] at h; omega
    · rw [if_neg hcond] at h; simp at h
  · by_cases hcond : 32 ≤ high - 1
    · rw [if_pos hcond] at h; simp only [List.mem_singleton] at h; omega
    · rw [if_neg hcond] at h; simp at h

theorem findConfirmed_mem (oracle : PosOracle) (l : List Int) (v : Int)
    (h : findConfirmed oracle l = some v) : v ∈ l := by
  induction l with
  | nil => simp [findConfirmed] at h
  | cons x xs ih =>
    simp only [findConfirmed] at h
    split_ifs at h
    · exact (Option.some.inj h) ▸ List.mem_cons_self _ _
    · exact List.mem_cons_of_mem _ (ih h)

/-- For every oracle behaviour, a character returned by
`extract_character_binary` has a printable codepoint. -/
theorem extract_character_binary_printable (oracle : PosOracle) (c : Int)
    (h : extract_character_binary oracle = some c) : 32 ≤ c ∧ c ≤ 126 := by
  have hrange := searchHigh_range oracle
  have hfold : binarySearchLoop (fun m => oracle (Pred.ge m)) 95 32 126 =
      searchHigh oracle := rfl
  simp only [extract_character_binary, hfold] at h
  cases hfc : findConfirmed oracle (candidatesToTest (searchHigh oracle)) with
  | some v =>
    simp only [hfc, Option.some.injEq] at h
    subst h
    exact candidatesToTest_bounds _ v hrange.1 hrange.2
      (findConfirmed_mem oracle _ v hfc)
  | none =>
    simp only [hfc] at h
    split_ifs at h with hcond
    simp only [Option.some.injEq] at h
    omega

theorem extractStringLoop_printable (oracle : Oracle) :
    ∀ (fuel p : Nat) (c : Int), c ∈ extractStringLoop oracle p fuel →
      32 ≤ c ∧ c ≤ 126 := by
  intro fuel
  induction fuel with
  | zero => intro p c hc; simp [extractStringLoop] at hc
  | succ n ih =>
    intro p c hc
    simp only [extractStringLoop] at hc
    cases hchar : extract_character_binary (oracle p) with
    | none => simp [hchar] at hc
    | some d =>
      have hd := extract_character_binary_printable (oracle p) d hchar
      simp only [hchar, notTerminator_of_printable d hd.1,
        Bool.false_eq_true, if_false, List.mem_cons] at hc
      rcases hc with rfl | hc
      · exact hd
      · exact ih (p + 1) c hc

theorem mem_rstripTerminators (s : List Int) (c : Int)
    (h : c ∈ rstripTerminators s) : c ∈ s := by
  simp only [rstripTerminators, List.mem_reverse] at h
  have := (List.dropWhile_sublist _).subset h
  simpa using this

/-- C10: for every position and every oracle behaviour (the engine never
submits the same predicate twice inside one character extraction, so a
boolean function of the predicate covers every answer sequence, including
adversarial ones), `extract_character_binary` returns `none` or a
codepoint in `[32, 126]`; consequently `extract_string` never emits a
control character such as NUL, LF or CR. -/
theorem extraction_always_printable :
    (∀ (oracle : PosOracle) (c : Int), extract_character_binary oracle = some c →
      32 ≤ c ∧ c ≤ 126) ∧
    (∀ (oracle : Oracle) (max_length : Nat) (c : Int),
      c ∈ extract_string oracle max_length → 32 ≤ c ∧ c ≤ 126) := by
  refine ⟨extract_character_binary_printable, ?_⟩
  intro oracle max_length c hc
  exact extractStringLoop_printable oracle max_length 1 c
    (mem_rstripTerminators _ c hc)

/-- Witness for C10 at a concrete oracle and a concrete extracted string. -/
theorem extraction_always_printable_witness :
    (32 ≤ (72 : Int) ∧ (72 : Int) ≤ 126) ∧ (32 ≤ (72 : Int) ∧ (72 : Int) ≤ 126) :=
  ⟨extraction_always_printable.1 (truthfulPosOracle 72) 72 (by decide),
   extraction_always_printable.2 (trueOracle [72]) 3 72 (by decide)⟩

/-- C4: when candidate verification rejects every candidate, the fallback
of `extract_character_binary` (extractor.py:198-204) returns `high` when
`32 ≤ high ≤ 126` and `none` otherwise; in particular it returns `none`
whenever the binary search terminated with `high < 32`. -/
theorem extract_character_binary_fallback (oracle : PosOracle)
    (hnone : findConfirmed oracle (candidatesToTest (searchHigh oracle)) = none) :
    extract_character_binary oracle =
      (if 32 ≤ searchHigh oracle ∧ searchHigh oracle ≤ 126
        then some (searchHigh oracle) else none) ∧
    (searchHigh oracle < 32 → extract_character_binary oracle = none) := by
  have hmain : extract_character_binary oracle =
      (if 32 ≤ searchHigh oracle ∧ searchHigh oracle ≤ 126
        then some (searchHigh oracle) else none) := by
    have hfold : binarySearchLoop (fun m => oracle (Pred.ge m)) 95 32 126 =
        searchHigh oracle := rfl
    simp only [extract_character_binary, hfold, hnone]
  refine ⟨hmain, fun hlt => ?_⟩
  rw [hmain, if_neg (by omega)]

/-- Witness for C4: the all-false oracle rejects every candidate, the
search ends with `high = 31 < 32`, and the fallback returns `none`. -/
theorem extract_character_binary_fallback_witness :
    extract_character_binary (fun _ => false) = none :=
  (extract_character_binary_fallback (fun _ => false) (by decide)).2 (by decide)

theorem binarySearchLoopCount_fst (oracle : Int → Bool) :
    ∀ (fuel : Nat) (low high : Int),
      (binarySearchLoopCount oracle fuel low high).1 =
        binarySearchLoop oracle fuel low high := by
  intro fuel
  induction fuel with
  | zero => intro low high; rfl
  | succ n ih =>
    intro low high
    simp only [binarySearchLoopCount, binarySearchLoop]
    split_ifs <;> simp [ih]

theorem findConfirmedCount_fst (oracle : PosOracle) (l : List Int) :
    (findConfirmedCount oracle l).1 = findConfirmed oracle l := by
  induction l with
  | nil => rfl
  | cons x xs ih =>
    simp only [findConfirmedCount, findConfirmed]
    split_ifs <;> simp [ih]

theorem extract_character_binary_count_fst (oracle : PosOracle) :
    (extract_character_binary_count oracle).1 = extract_character_binary oracle := by
  simp only [extract_character_binary_count, extract_character_binary,
    binarySearchLoopCount_fst, findConfirmedCount_fst]
  cases hv : findConfirmed oracle
      (candidatesToTest (binarySearchLoop (fun m => oracle (Pred.ge m)) 95 32 126)) <;>
    simp [hv]

theorem extract_character_binary_count_snd (oracle : PosOracle) :
    (extract_character_binary_count oracle).2 =
      (binarySearchLoopCount (fun m => oracle (Pred.ge m)) 95 32 126).2 +
        (findConfirmedCount oracle (candidatesToTest
          (binarySearchLoopCount (fun m => oracle (Pred.ge m)) 95 32 126).1)).2 := by
  simp only [extract_character_binary_count]
  cases hv : (findConfirmedCount oracle (candidatesToTest
      (binarySearchLoopCount (fun m => oracle (Pred.ge m)) 95 32 126).1)).1 <;>
    simp [hv]

/-- The binary-search loop performs at most `k` oracle calls when the
width of the initial range is below `2^k`: each iteration at least halves
the remaining width. -/
theorem binarySearchLoopCount_le (oracle : Int → Bool) :
    ∀ (fuel : Nat) (low high : Int) (k : Nat),
      (high + 1 - low).toNat ≤ 2 ^ k - 1 →
      (binarySearchLoopCount oracle fuel low high).2 ≤ k := by
  intro fuel
  induction fuel with
  | zero => intro low high k _; simp [binarySearchLoopCount]
  | succ n ih =>
    intro low high k hk
    simp only [binarySearchLoopCount]
    split_ifs with hlh hc
    · cases k with
      | zero => norm_num at hk; omega
      | succ j =>
        have h1 : 1 ≤ 2 ^ j := Nat.one_le_two_pow
        have hpow : 2 ^ (j + 1) = 2 * 2 ^ j := by ring
        have := ih ((low + high) / 2 + 1) high j (by omega)
        simpa using Nat.add_le_add_right this 1
    · cases k with
      | zero => norm_num at hk; omega
      | succ j =>
        have h1 : 1 ≤ 2 ^ j := Nat.one_le_two_pow
        have hpow : 2 ^ (j + 1) = 2 * 2 ^ j := by ring
        have := ih low ((low + high) / 2 - 1) j (by omega)
        simpa using Nat.add_le_add_right this 1
    · simp

theorem findConfirmedCount_le_length (oracle : PosOracle) (l : List Int) :
    (findConfirmedCount oracle l).2 ≤ l.length := by
  induction l with
  | nil => simp [findConfirmedCount]
  | cons x xs ih =>
    simp only [findConfirmedCount, List.length_cons]
    split_ifs
    · simp
    · simpa using Nat.add_le_add_right ih 1

theorem insertDesc_length (x : Int) (l : List Int) :
    (insertDesc x l).length = l.length + 1 := by
  induction l with
  | nil => rfl
  | cons y ys ih =>
    simp only [insertDesc]
    split_ifs <;> simp [ih]

theorem sortDesc_length (l : List Int) : (sortDesc l).length = l.length := by
  induction l with
  | nil => rfl
  | cons x xs ih => simp [sortDesc, insertDesc_length, ih]

theorem dedupKeepFirst_length_le (seen l : List Int) :
    (dedupKeepFirst seen l).length ≤ l.length := by
  induction l generalizing seen with
  | nil => simp [dedupKeepFirst]
  | cons x xs ih =>
    simp only [dedupKeepFirst, List.length_cons]
    split_ifs
    · exact le_trans (ih _) (by omega)
    · simpa using Nat.add_le_add_right (ih _) 1

theorem candidatesToTest_length_le (high : Int) :
    (candidatesToTest high).length ≤ 3 := by
  simp only [candidatesToTest, sortDesc_length]
  refine le_trans (dedupKeepFirst_length_le _ _) ?_
  simp only [List.length_append]
  split_ifs <;> simp

/-- C6: whenever `extract_character_binary` returns a character, the
binary-search loop over [32, 126] made at most `⌈log₂ 95⌉ = 7` oracle
calls, candidate verification at most 3 more, and with the default 7
probe requests per oracle call (`_test_condition`'s `samples = 7`) the
call issued at most `(7 + 3) · 7 = 70` probe requests. -/
theorem extract_character_query_bound (oracle : PosOracle) (c : Int)
    (h : (extract_character_binary_count oracle).1 = some c) :
    (binarySearchLoopCount (fun m => oracle (Pred.ge m)) 95 32 126).2 ≤ 7 ∧
    (findConfirmedCount oracle (candidatesToTest
      (binarySearchLoopCount (fun m => oracle (Pred.ge m)) 95 32 126).1)).2 ≤ 3 ∧
    7 * (extract_character_binary_count oracle).2 ≤ 70 := by
  have hloop : (binarySearchLoopCount (fun m => oracle (Pred.ge m)) 95 32 126).2 ≤ 7 :=
    binarySearchLoopCount_le _ 95 32 126 7 (by norm_num)
  have hfind := le_trans
    (findConfirmedCount_le_length oracle (candidatesToTest
      (binarySearchLoopCount (fun m => oracle (Pred.ge m)) 95 32 126).1))
    (candidatesToTest_length_le _)
  refine ⟨hloop, hfind, ?_⟩
  rw [extract_character_binary_count_snd]
  omega

/-- Witness for C6 at the truthful oracle for codepoint 72. -/
theorem extract_character_query_bound_witness :
    (binarySearchLoopCount (fun m => truthfulPosOracle 72 (Pred.ge m)) 95 32 126).2 ≤ 7 ∧
    (findConfirmedCount (truthfulPosOracle 72) (candidatesToTest
      (binarySearchLoopCount (fun m => truthfulPosOracle 72 (Pred.ge m)) 95 32 126).1)).2 ≤ 3 ∧
    7 * (extract_character_binary_count (truthfulPosOracle 72)).2 ≤ 70 :=
  extract_character_query_bound (truthfulPosOracle 72) 72 (by decide)

/-- One parallel chunk (`extract_characters_parallel`, parallel.py:26-69):
each worker runs `extract_character_binary` for its own position and the
results are keyed by position.  With the oracle a pure function of
position and predicate, the workers' completion order cannot influence
the key-value pairs, so the chunk is modelled by a map over the
positions. -/
def extract_characters_parallel (oracle : Oracle) (positions : List Nat) :
    List (Nat × Option Int) :=
  positions.map (fun p => (p, extract_character_binary (oracle p)))

/-- The chunk loop of `extract_string_chunks` (parallel.py:92-104):
windows `[start, min (start + chunk_size - 1) max_length]` for
`start = 1, 1 + chunk_size, ...` while `start ≤ max_length`; extraction
halts after the first chunk whose results contain a `None`.  Fueled by the
iteration count; fuel `max_length` suffices for any `chunk_size ≥ 1`. -/
def chunkLoop (oracle : Oracle) (chunk_size max_length : Nat) :
    Nat → Nat → List (Nat × Option Int)
  | _, 0 => []
  | start, fuel + 1 =>
    if start ≤ max_length then
      let end_pos := min (start + chunk_size - 1) max_length
      let res := extract_characters_parallel oracle
        (List.range' start (end_pos + 1 - start))
      if res.any (fun pr => pr.2.isNone) then res
      else res ++ chunkLoop oracle chunk_size max_length (start + chunk_size) fuel
    else []

/-- Reconstruction of the string from the position-keyed results
(parallel.py:107-114): scan entries in ascending key order, stop at a
`None`, append each character, and stop after appending NUL, LF or CR. -/
def reconstruct : List (Nat × Option Int) → List Int
  | [] => []
  | (_, none) :: _ => []
  | (_, some c) :: rest =>
    if c == 0 || c == 10 || c == 13 then [c] else c :: reconstruct rest

/-- Function `extract_string_chunks` (parallel.py:71-116): run the chunk loop from
position 1, reconstruct in key order, strip trailing terminators. -/
def extract_string_chunks (oracle : Oracle) (chunk_size max_length : Nat) :
    List Int :=
  rstripTerminators (reconstruct (chunkLoop oracle chunk_size max_length 1 max_length))

/-- A chunk that stays inside the hidden string reconstructs its slice of
the string and passes control to the remaining entries. -/
theorem reconstruct_inside_chunk (s : List Int)
    (hs : ∀ c ∈ s, 32 ≤ c ∧ c ≤ 126) :
    ∀ (count start : Nat) (rest : List (Nat × Option Int)), 1 ≤ start →
      start + count ≤ s.length + 1 →
      reconstruct (extract_characters_parallel (trueOracle s)
          (List.range' start count) ++ rest) =
        (s.drop (start - 1)).take count ++ reconstruct rest := by
  intro count
  induction count with
  | zero => intro start rest h1 h2; simp [extract_characters_parallel]
  | succ n ih =>
    intro start rest h1 h2
    have hget : ∃ c, s.get? (start - 1) = some c := by
      have hlt : start - 1 < s.length := by omega
      exact ⟨s.get ⟨start - 1, hlt⟩, List.get?_eq_get hlt⟩
    obtain ⟨c, hc⟩ := hget
    obtain ⟨hc1, hc2⟩ := hs c (List.get?_mem hc)
    have hchar : extract_character_binary (trueOracle s start) = some c := by
      rw [trueOracle_eq_of_get s start c hc]
      exact extract_character_binary_truthful c hc1 hc2
    have hrange : List.range' start (n + 1) = start :: List.range' (start + 1) n := rfl
    rw [hrange]
    simp only [extract_characters_parallel, List.map_cons, List.cons_append,
      hchar]
    simp only [reconstruct, notTerminator_of_printable c hc1,
      Bool.false_eq_true, if_false]
    have hih := ih (start + 1) rest (by omega) (by omega)
    simp only [extract_characters_parallel] at hih
    rw [hih, drop_cons_of_get s (start - 1) c hc,
      show start - 1 + 1 = start from by omega, List.take_succ_cons,
      List.cons_append]
    simp only [Nat.add_sub_cancel]

/-- A chunk that reaches past the end of the hidden string reconstructs
exactly the remaining tail of the string (entries past the end are `None`
and cut the reconstruction). -/
theorem reconstruct_overrun_chunk (s : List Int)
    (hs : ∀ c ∈ s, 32 ≤ c ∧ c ≤ 126) :
    ∀ (count start : Nat), 1 ≤ start → s.length < start + count →
      reconstruct (extract_characters_parallel (trueOracle s)
          (List.range' start count)) =
        s.drop (start - 1) := by
  intro count
  induction count with
  | zero =>
    intro start h1 h
    rw [List.drop_eq_nil_of_le (by omega)]
    simp [extract_characters_parallel, reconstruct]
  | succ n ih =>
    intro start h1 h
    have hrange : List.range' start (n + 1) = start :: List.range' (start + 1) n := rfl
    rw [hrange]
    by_cases hin : start ≤ s.length
    · have hget : ∃ c, s.get? (start - 1) = some c := by
        have hlt : start - 1 < s.length := by omega
        exact ⟨s.get ⟨start - 1, hlt⟩, List.get?_eq_get hlt⟩
      obtain ⟨c, hc⟩ := hget
      obtain ⟨hc1, hc2⟩ := hs c (List.get?_mem hc)
      have hchar : extract_character_binary (trueOracle s start) = some c := by
        rw [trueOracle_eq_of_get s start c hc]
        exact extract_character_binary_truthful c hc1 hc2
      simp only [extract_characters_parallel, List.map_cons, hchar]
      simp only [reconstruct, notTerminator_of_printable c hc1,
        Bool.false_eq_true, if_false]
      have hih := ih (start + 1) (by omega) (by omega)
      simp only [extract_characters_parallel] at hih
      rw [hih, drop_cons_of_get s (start - 1) c hc,
        show start - 1 + 1 = start from by omega]
      simp only [Nat.add_sub_cancel]
    · have hchar : extract_character_binary (trueOracle s start) = none :=
        extract_character_binary_past_end s start (by omega)
      simp only [extract_characters_parallel, List.map_cons, hchar]
      rw [List.drop_eq_nil_of_le (by omega)]
      rfl

/-- A chunk entirely inside the hidden string produces no `None`. -/
theorem chunk_no_none (s : List Int) (hs : ∀ c ∈ s, 32 ≤ c ∧ c ≤ 126)
    (count start : Nat) (h1 : 1 ≤ start) (h : start + count ≤ s.length + 1) :
    (extract_characters_parallel (trueOracle s)
      (List.range' start count)).any (fun pr => pr.2.isNone) = false := by
  rw [Bool.eq_false_iff]
  intro hany
  obtain ⟨pr, hmem, hpr⟩ := List.any_eq_true.mp hany
  simp only [extract_characters_parallel, List.mem_map] at hmem
  obtain ⟨p, hp, rfl⟩ := hmem
  rw [List.mem_range'_1] at hp
  have hlt : p - 1 < s.length := by omega
  have hc : s.get? (p - 1) = some (s.get ⟨p - 1, hlt⟩) := List.get?_eq_get hlt
  obtain ⟨hc1, hc2⟩ := hs _ (List.get?_mem hc)
  have hchar : extract_character_binary (trueOracle s p) =
      some (s.get ⟨p - 1, hlt⟩) := by
    rw [trueOracle_eq_of_get s p _ hc]
    exact extract_character_binary_truthful _ hc1 hc2
  simp [hchar] at hpr

/-- A chunk reaching strictly past the end of the string contains a
`None`. -/
theorem chunk_has_none (s : List Int) (count start : Nat) (h0 : 1 ≤ count)
    (h : s.length + 1 < start + count) :
    (extract_characters_parallel (trueOracle s)
      (List.range' start count)).any (fun pr => pr.2.isNone) = true := by
  rw [List.any_eq_true]
  refine ⟨(max start (s.length + 1),
    extract_character_binary (trueOracle s (max start (s.length + 1)))), ?_, ?_⟩
  · simp only [extract_characters_parallel, List.mem_map]
    exact ⟨max start (s.length + 1),
      List.mem_range'_1.mpr ⟨le_max_left _ _, by omega⟩, rfl⟩
  · have hnone : extract_character_binary
        (trueOracle s (max start (s.length + 1))) = none :=
      extract_character_binary_past_end s _ (by omega)
    simp [hnone]

theorem take_min_chunk (t : List Int) (cs r : Nat) :
    t.take (min cs r) ++ (t.drop cs).take (r - cs) = t.take r := by
  by_cases h : cs ≤ r
  · rw [show min cs r = cs from by omega]
    conv_rhs => rw [show r = cs + (r - cs) from by omega]
    rw [List.take_add]
  · rw [show r - cs = 0 from by omega, show min cs r = r from by omega]
    simp

/-- Run against the truthful oracle, the chunk loop followed by the
ordered reconstruction yields the suffix, from `start` on, of the hidden
string capped at `max_length` codepoints. -/
theorem reconstruct_chunkLoop (s : List Int) (hs : ∀ c ∈ s, 32 ≤ c ∧ c ≤ 126)
    (cs ml : Nat) (hcs : 1 ≤ cs) :
    ∀ (fuel start : Nat), 1 ≤ start → ml + 1 ≤ start + fuel →
      reconstruct (chunkLoop (trueOracle s) cs ml start fuel) =
        (s.take ml).drop (start - 1) := by
  intro fuel
  induction fuel with
  | zero =>
    intro start h1 h2
    rw [List.drop_eq_nil_of_le (by rw [List.length_take]; omega)]
    rfl
  | succ n ih =>
    intro start h1 h2
    by_cases hguard : start ≤ ml
    · simp only [chunkLoop, if_pos hguard]
      by_cases hover : s.length < min (start + cs - 1) ml
      · rw [chunk_has_none s (min (start + cs - 1) ml + 1 - start) start
          (by omega) (by omega), if_pos rfl]
        rw [reconstruct_overrun_chunk s hs (min (start + cs - 1) ml + 1 - start)
          start h1 (by omega)]
        rw [List.take_of_length_le (show s.length ≤ ml from by omega)]
      · rw [chunk_no_none s hs (min (start + cs - 1) ml + 1 - start) start h1
          (by omega)]
        simp only [Bool.false_eq_true, if_false]
        rw [reconstruct_inside_chunk s hs (min (start + cs - 1) ml + 1 - start)
          start _ h1 (by omega)]
        rw [ih (start + cs) (by omega) (by omega)]
        rw [List.drop_take, List.drop_take,
          show start + cs - 1 = start - 1 + cs from by omega, ← List.drop_drop]
        rw [show min (start - 1 + cs) ml + 1 - start =
            min cs (ml - (start - 1)) from by omega,
          show ml - (start - 1 + cs) = ml - (start - 1) - cs from by omega]
        exact take_min_chunk (s.drop (start - 1)) cs (ml - (start - 1))
    · simp only [chunkLoop, if_neg hguard]
      rw [List.drop_eq_nil_of_le (by rw [List.length_take]; omega)]
      rfl

/-- C2: against the truthful deterministic oracle for a hidden string,
parallel chunked extraction returns the identical string to sequential
`extract_string` with the same `max_length`, for every `chunk_size ≥ 1`
(in the pure model the worker count cannot influence the position-keyed
results); moreover in the chunked reconstruction a `None` entry at
position `p` truncates the string at `p - 1`: every later entry is
discarded even if already computed. -/
theorem chunked_matches_sequential :
    (∀ (s : List Int) (cs ml : Nat), 1 ≤ cs → (∀ c ∈ s, 32 ≤ c ∧ c ≤ 126) →
      extract_string_chunks (trueOracle s) cs ml =
        extract_string (trueOracle s) ml) ∧
    (∀ (pre : List (Nat × Option Int)) (p : Nat)
      (post : List (Nat × Option Int)),
      reconstruct (pre ++ (p, none) :: post) = reconstruct pre) := by
  constructor
  · intro s cs ml hcs hs
    unfold extract_string_chunks extract_string
    rw [reconstruct_chunkLoop s hs cs ml hcs ml 1 (by omega) (by omega),
      extractStringLoop_truthful s hs ml 1 (by omega)]
    simp
  · intro pre p post
    induction pre with
    | nil => rfl
    | cons x rest ih =>
      obtain ⟨q, oc⟩ := x
      cases oc with
      | none => rfl
      | some c =>
        simp only [List.cons_append, reconstruct, List.append_eq]
        split_ifs
        · rfl
        · rw [ih]

/-- Witness for C2 at the hidden string "Hi", chunk size 2, max length 5,
and a concrete truncating reconstruction. -/
theorem chunked_matches_sequential_witness :
    extract_string_chunks (trueOracle [72, 105]) 2 5 =
      extract_string (trueOracle [72, 105]) 5 ∧
    reconstruct ([(1, some 72)] ++ (2, none) :: [(3, some 105)]) =
      reconstruct [(1, some 72)] :=
  ⟨chunked_matches_sequential.1 [72, 105] 2 5 (by omega) (by decide),
   chunked_matches_sequential.2 [(1, some 72)] 2 [(3, some 105)]⟩

/-- The outcome the network environment assigns to one probe request:
the wall-clock seconds elapsed until the response or until the transport
failure, and whether the request raised `requests.RequestException`.
`_measure_request_time` (extractor.py:54-60) appends
`time.time() - start` whether or not the request failed (the exception
is swallowed by `try/except pass`), so exactly one timing is recorded
per iteration. -/
structure ProbeOutcome where
  elapsed : ℚ
  failed : Bool

/-- Method `_measure_request_time` (extractor.py:36-61): issue `samples`
requests and record the elapsed time of each. -/
def measure_request_time (env : Nat → ProbeOutcome) (samples : Nat) : List ℚ :=
  (List.range samples).map (fun i => (env i).elapsed)

/-- C7: each oracle call (`_test_condition`, extractor.py:82) collects
exactly `samples = 7` timing samples by default; with a monotone wall
clock every sample is a non-negative (finite, rational) value; and the
timing list — length and entries — depends only on the elapsed times,
never on which requests failed. -/
theorem measure_request_time_spec (env : Nat → ProbeOutcome)
    (hclock : ∀ i, 0 ≤ (env i).elapsed) :
    (measure_request_time env 7).length = 7 ∧
    (∀ t ∈ measure_request_time env 7, 0 ≤ t) ∧
    (∀ env' : Nat → ProbeOutcome,
      (∀ i, (env' i).elapsed = (env i).elapsed) →
      measure_request_time env' 7 = measure_request_time env 7) := by
  refine ⟨by simp [measure_request_time], ?_, ?_⟩
  · intro t ht
    simp only [measure_request_time, List.mem_map] at ht
    obtain ⟨i, _, rfl⟩ := ht
    exact hclock i
  · intro env' henv
    simp [measure_request_time, henv]

/-- Witness for C7 at the environment where every request fails
instantly. -/
theorem measure_request_time_spec_witness :
    (measure_request_time (fun _ => ⟨0, true⟩) 7).length = 7 :=
  (measure_request_time_spec (fun _ => ⟨0, true⟩) (fun _ => le_refl 0)).1

/-- The URL argument the extractor's probe passes to `session.get`
(extractor.py:47-51): the configured URL up to, and excluding, its first
question mark (`base_url.split('?')[0]`); the payload is then bound to a
single fresh query parameter. -/
def probe_url (base_url : List Char) : List Char :=
  if base_url.contains '?' then base_url.takeWhile (fun c => c != '?')
  else base_url

/-- The URL argument the calibrator's baseline probes (adaptive.py:40)
and delay probes (adaptive.py:66) pass to `session.get`: the configured
URL unmodified. -/
def adaptive_probe_url (base_url : List Char) : List Char := base_url

/-- Counterexample to C8: for the configured URL "http://t/p?id=1" the
calibrator's probes are sent to the URL unmodified — still containing
its query part — whereas the claim requires every probe, including the
calibrator's, to use the URL stripped of the query part. -/
theorem calibrator_url_not_stripped :
    adaptive_probe_url ("http://t/p?id=1".toList) ≠
      probe_url ("http://t/p?id=1".toList) ∧
    '?' ∈ adaptive_probe_url ("http://t/p?id=1".toList) := by
  constructor
  · decide
  · decide

/-- C8 amended: the extractor's probes use the configured URL stripped
of any query part (the prefix before the first '?', hence never
containing '?'), while the calibrator's baseline and delay-measurement
probes use the configured URL unmodified. -/
theorem probe_url_spec (base_url : List Char) :
    probe_url base_url = base_url.takeWhile (fun c => c != '?') ∧
    '?' ∉ probe_url base_url ∧
    adaptive_probe_url base_url = base_url := by
  have hmain : probe_url base_url = base_url.takeWhile (fun c => c != '?') := by
    unfold probe_url
    split_ifs with hc
    · rfl
    · refine (List.takeWhile_eq_self_iff.mpr ?_).symm
      intro a ha
      simp only [bne_iff_ne, ne_eq, decide_eq_true_eq]
      intro ha_eq
      subst ha_eq
      exact hc (List.elem_iff.mpr ha)
  refine ⟨hmain, ?_, rfl⟩
  rw [hmain]
  intro hmem
  have := List.mem_takeWhile_imp hmem
  simp at this

/-- Witness for C8 (amended) at a concrete URL with a query part. -/
theorem probe_url_spec_witness :
    probe_url ("http://t/p?id=1".toList) =
      ("http://t/p?id=1".toList).takeWhile (fun c => c != '?') :=
  (probe_url_spec ("http://t/p?id=1".toList)).1

/-- Mean of a timing sample (`np.mean`, `statistics.mean`); rationals
model the floating-point seconds. -/
def listMean (xs : List ℚ) : ℚ := xs.sum / xs.length

/-- The quantity under the square root in `np.std(timings, ddof=1)` and
`statistics.stdev`: the sample variance with one delta degree of
freedom. -/
def sampleVariance (xs : List ℚ) : ℚ :=
  (xs.map (fun x => (x - listMean xs) ^ 2)).sum / ((xs.length : ℚ) - 1)

/-- Method `calculate_baseline` (stats.py:25-39), parametrized by the
square-root operation `sqrtFn` used by `np.std`: `(0, 0)` for an empty
sample, else the mean paired with the sample standard deviation when the
sample has more than one element and `0.0` otherwise. -/
def calculate_baseline (sqrtFn : ℚ → ℚ) (timings : List ℚ) : ℚ × ℚ :=
  if timings = [] then (0, 0)
  else (listMean timings,
    if 1 < timings.length then sqrtFn (sampleVariance timings) else 0)

/-- Method `calculate_adaptive_threshold` (stats.py:64-81): the default
threshold `1.0` for samples shorter than `min_samples`, otherwise
`mean + 3·std` clamped to at least `mean · 1.1`. -/
def calculate_adaptive_threshold (sqrtFn : ℚ → ℚ) (min_samples : Nat)
    (baseline_samples : List ℚ) : ℚ :=
  if baseline_samples.length < min_samples then 1
  else
    let mean := (calculate_baseline sqrtFn baseline_samples).1
    let std := (calculate_baseline sqrtFn baseline_samples).2
    max (mean + 3 * std) (mean * 1.1)

/-- Counterexample to C9: on the one-element baseline `[10]` (fewer than
the default `min_samples = 5`) the analyzer returns the default
threshold `1.0`, while the claimed formula `max (mean + 3·stdev)
(1.1·mean)` evaluates to `11`. -/
theorem adaptive_threshold_short_sample :
    calculate_adaptive_threshold (fun q => q) 5 [10] = 1 ∧
    max (listMean [10] + 3 * (calculate_baseline (fun q => q) [10]).2)
      (listMean [10] * 1.1) = 11 ∧
    (1 : ℚ) ≠ 11 := by
  refine ⟨rfl, ?_, by norm_num⟩
  norm_num [calculate_baseline, listMean]

/-- C9 amended: for baseline samples with at least `min_samples` (and at
least two) observations, `calculate_adaptive_threshold` returns the
sample mean plus three sample standard deviations, clamped to at least
1.10 times the mean. -/
theorem adaptive_threshold_formula (sqrtFn : ℚ → ℚ) (min_samples : Nat)
    (b : List ℚ) (h1 : min_samples ≤ b.length) (h2 : 2 ≤ b.length) :
    calculate_adaptive_threshold sqrtFn min_samples b =
      max (listMean b + 3 * sqrtFn (sampleVariance b)) (listMean b * 1.1) := by
  have hne : b ≠ [] := by
    intro he
    rw [he] at h2
    simp at h2
  simp only [calculate_adaptive_threshold,
    if_neg (show ¬ b.length < min_samples from by omega), calculate_baseline,
    if_neg hne, if_pos (show 1 < b.length from by omega)]

/-- Witness for C9 (amended) at the five-sample constant baseline. -/
theorem adaptive_threshold_formula_witness :
    calculate_adaptive_threshold (fun q => q) 5 [1, 1, 1, 1, 1] =
      max (listMean [1, 1, 1, 1, 1] +
          3 * (fun q => q) (sampleVariance [1, 1, 1, 1, 1]))
        (listMean [1, 1, 1, 1, 1] * 1.1) :=
  adaptive_threshold_formula (fun q => q) 5 [1, 1, 1, 1, 1] (by decide) (by decide)

/-- ASCII uppercasing, modelling Python `str.upper()` on the payload
texts involved. -/
def upper (s : List Char) : List Char := s.map Char.toUpper

/-- Substring containment, modelling Python `needle in haystack`. -/
def containsSub (needle : List Char) : List Char → Bool
  | [] => needle.isEmpty
  | c :: rest => needle.isPrefixOf (c :: rest) || containsSub needle rest

/-- The format slot `\x7bcondition\x7d` of the payload template. -/
def conditionSlot : List Char :=
  Char.ofNat 123 :: "condition".toList ++ [Char.ofNat 125]

/-- Python `template.format(condition=cond)` on the engine's templates,
whose only format field is the `condition` slot: replace every
occurrence of the slot by `cond`.  Structured with fuel consumed one
text character per step; `formatCondition` supplies the text's length,
which always suffices. -/
def formatConditionAux (cond : List Char) : Nat → List Char → List Char
  | 0, l => l
  | _, [] => []
  | fuel + 1, c :: rest =>
    if conditionSlot.isPrefixOf (c :: rest) then
      cond ++ formatConditionAux cond fuel ((c :: rest).drop conditionSlot.length)
    else c :: formatConditionAux cond fuel rest

def formatCondition (cond template : List Char) : List Char :=
  formatConditionAux cond template.length template

/-- The regex `SLEEP\([0-9.]+\)` with `re.IGNORECASE` matched at the
head of the text: the case-insensitive literal `SLEEP(`, one or more
digit-or-dot characters, then `)`.  The greedy `[0-9.]+` needs no
backtracking beyond the maximal munch: any shorter munch leaves a
digit-or-dot in the place the closing parenthesis must occupy.  Returns
the length of the match. -/
def matchSleepAt (s : List Char) : Option Nat :=
  if upper (s.take 6) = "SLEEP(".toList then
    let digits := ((s.drop 6).takeWhile (fun c => c.isDigit || c == '.')).length
    if 0 < digits ∧ (s.drop (6 + digits)).take 1 = [')'] then
      some (6 + digits + 1)
    else none
  else none

/-- Python `re.sub(r'SLEEP\([0-9.]+\)', f'SLEEP(D)', template, flags=re.IGNORECASE)`
(extractor.py:101-106): scan left to right, replacing each
non-overlapping match by `SLEEP(` ++ delayStr ++ `)`, where `delayStr`
renders the configured delay.  Fuel as in `formatCondition`. -/
def subSleepAux (delayStr : List Char) : Nat → List Char → List Char
  | 0, l => l
  | _, [] => []
  | fuel + 1, c :: rest =>
    match matchSleepAt (c :: rest) with
    | some n =>
      "SLEEP(".toList ++ delayStr ++ [')'] ++
        subSleepAux delayStr fuel ((c :: rest).drop n)
    | none => c :: subSleepAux delayStr fuel rest

def subSleep (delayStr template : List Char) : List Char :=
  subSleepAux delayStr template.length template

/-- The payload constructed by `_test_condition` (extractor.py:96-115)
as a function of the template text, the predicate text and the rendered
delay: (1) if the template contains `SLEEP` case-insensitively, rewrite
every `SLEEP(number)` argument to the delay and substitute the predicate
verbatim; (2) otherwise, if the predicate does not contain `SLEEP`
case-insensitively, substitute `(predicate) AND SLEEP(delay)`;
(3) otherwise substitute the predicate verbatim. -/
def test_condition_payload (template condition delayStr : List Char) :
    List Char :=
  if containsSub "SLEEP".toList (upper template) then
    formatCondition condition (subSleep delayStr template)
  else if !containsSub "SLEEP".toList (upper condition) then
    formatCondition
      (('(' :: condition ++ ") AND SLEEP(".toList) ++ delayStr ++ [')'])
      template
  else formatCondition condition template

/-- The payload rule exactly as the specification words it (§4.4 and
claim C3): identical to the source's construction except that the
containment tests look for the text `SLEEP(` instead of `SLEEP`. -/
def claimed_test_condition_payload (template condition delayStr : List Char) :
    List Char :=
  if containsSub "SLEEP(".toList (upper template) then
    formatCondition condition (subSleep delayStr template)
  else if !containsSub "SLEEP(".toList (upper condition) then
    formatCondition
      (('(' :: condition ++ ") AND SLEEP(".toList) ++ delayStr ++ [')'])
      template
  else formatCondition condition template

/-- Counterexample to C3: on the template `SLEEPY \x7bcondition\x7d`
(which contains the text `SLEEP` but not `SLEEP(`), the code applies
rule 1 — the `SLEEP(number)` rewrite finds nothing and the predicate is
substituted verbatim — while the claim's rules demand rule 2, appending
`AND SLEEP(D)` to the predicate.  The two payloads differ. -/
theorem payload_rule_needle_differs :
    test_condition_payload ("SLEEPY ".toList ++ conditionSlot) ("1=1".toList)
        ("2".toList) ≠
      claimed_test_condition_payload ("SLEEPY ".toList ++ conditionSlot)
        ("1=1".toList) ("2".toList) := by
  decide

/-- C3 amended: the payload is a deterministic function of the template
and the predicate following the claim's three ordered rules, with the
containment tests checking for the substring `SLEEP` (case-insensitively)
rather than `SLEEP(`: (1) a template containing `SLEEP` has every
`SLEEP(number)` argument rewritten to the delay and the predicate
substituted verbatim; (2) otherwise a predicate not containing `SLEEP`
is substituted as `(predicate) AND SLEEP(D)`; (3) otherwise the
predicate is substituted verbatim. -/
theorem test_condition_payload_rules (template condition delayStr : List Char) :
    (containsSub "SLEEP".toList (upper template) = true →
      test_condition_payload template condition delayStr =
        formatCondition condition (subSleep delayStr template)) ∧
    (containsSub "SLEEP".toList (upper template) = false →
      containsSub "SLEEP".toList (upper condition) = false →
      test_condition_payload template condition delayStr =
        formatCondition
          (('(' :: condition ++ ") AND SLEEP(".toList) ++ delayStr ++ [')'])
          template) ∧
    (containsSub "SLEEP".toList (upper template) = false →
      containsSub "SLEEP".toList (upper condition) = true →
      test_condition_payload template condition delayStr =
        formatCondition condition template) := by
  refine ⟨fun h1 => ?_, fun h1 h2 => ?_, fun h1 h2 => ?_⟩
  · unfold test_condition_payload
    rw [if_pos h1]
  · unfold test_condition_payload
    rw [if_neg (by rw [h1]; simp), if_pos (by rw [h2]; rfl)]
  · unfold test_condition_payload
    rw [if_neg (by rw [h1]; simp), if_neg (by rw [h2]; simp)]

/-- Witness for C3 (amended) on a template without `SLEEP` and the
predicate `1=1`: rule 2 fires. -/
theorem test_condition_payload_rules_witness :
    test_condition_payload ("ID=".toList ++ conditionSlot) ("1=1".toList)
        ("2".toList) =
      formatCondition
        (('(' :: "1=1".toList ++ ") AND SLEEP(".toList) ++ "2".toList ++ [')'])
        ("ID=".toList ++ conditionSlot) :=
  (test_condition_payload_rules ("ID=".toList ++ conditionSlot) ("1=1".toList)
    ("2".toList)).2.1 (by decide) (by decide)

/-- Method `_measure_baseline_no_delay` (adaptive.py:32-45): `samples` requests
with the always-false predicate `1=0`; the network environment supplies
the elapsed time of each. -/
def measure_baseline_no_delay (envBase : Nat → ℚ) (samples : Nat) : List ℚ :=
  (List.range samples).map envBase

/-- Method `_measure_with_delay` (adaptive.py:47-71): `samples` requests with
the template's `SLEEP` rewritten to the candidate delay and the
always-true predicate `1=1`; the environment supplies each elapsed time
as a function of the candidate delay. -/
def measure_with_delay (envProbe : ℚ → Nat → ℚ) (delay : ℚ) (samples : Nat) :
    List ℚ :=
  (List.range samples).map (envProbe delay)

/-- The `while current_delay <= max_delay` loop of `detect_optimal_delay`
(adaptive.py:100-108): probe each candidate with 5 samples and keep
`(candidate, probe_mean - baseline_mean)` when the probe mean strictly
exceeds `min_detectable * 1.5`.  Fueled; the fuel passed by
`detect_optimal_delay` covers the whole range whenever `step > 0` (for
`step ≤ 0` the Python loop does not terminate). -/
def delayLoop (envProbe : ℚ → Nat → ℚ)
    (baseline_mean min_detectable max_delay step : ℚ) :
    Nat → ℚ → List (ℚ × ℚ)
  | 0, _ => []
  | fuel + 1, current =>
    if current ≤ max_delay then
      (if min_detectable * 1.5 <
          listMean (measure_with_delay envProbe current 5) then
        [(current, listMean (measure_with_delay envProbe current 5) -
          baseline_mean)]
      else []) ++
        delayLoop envProbe baseline_mean min_detectable max_delay step fuel
          (current + step)
    else []

/-- Python `min(test_delays, key=lambda x: x[0])` (adaptive.py:116): the
first pair with the minimal first component. -/
def minByFst (p : ℚ × ℚ) (rest : List (ℚ × ℚ)) : ℚ × ℚ :=
  rest.foldl (fun acc x => if x.1 < acc.1 then x else acc) p

/-- Method `detect_optimal_delay` (adaptive.py:73-120), parametrized by the
square root used by `statistics.stdev` and by the network environment:
collect the 10-sample baseline, compute `μ0` and `σ0`
(`min_detectable = μ0 + 3·σ0`), scan the candidates
`min_delay, min_delay + step, ...` while `≤ max_delay`, and return the
smallest candidate whose 5-sample probe mean strictly exceeds
`min_detectable · 1.5`, or `initial_delay` when none qualifies. -/
def detect_optimal_delay (sqrtFn : ℚ → ℚ) (envBase : Nat → ℚ)
    (envProbe : ℚ → Nat → ℚ)
    (initial_delay min_delay max_delay step : ℚ) : ℚ :=
  let baseline := measure_baseline_no_delay envBase 10
  let baseline_mean := listMean baseline
  let baseline_std :=
    if 1 < baseline.length then sqrtFn (sampleVariance baseline) else 0
  let min_detectable := baseline_mean + 3 * baseline_std
  let fuel := ((max_delay - min_delay) / step).floor.toNat + 1
  match delayLoop envProbe baseline_mean min_detectable max_delay step fuel
      min_delay with
  | [] => initial_delay
  | p :: rest => (minByFst p rest).1

/-- The delays `detect_optimal_delay` scans:
`min_delay, min_delay + step, ...`, up to `max_delay`. -/
def isCandidateDelay (min_delay max_delay step d : ℚ) : Prop :=
  (∃ i : Nat, d = min_delay + i * step) ∧ d ≤ max_delay

/-- The detectability test of adaptive.py:105: the candidate's 5-sample
probe mean strictly exceeds `(μ0 + 3·σ0) · 1.5` for the 10-sample
baseline's mean `μ0` and sample standard deviation `σ0`. -/
def isDetectable (sqrtFn : ℚ → ℚ) (envBase : Nat → ℚ)
    (envProbe : ℚ → Nat → ℚ) (d : ℚ) : Prop :=
  (listMean (measure_baseline_no_delay envBase 10) +
      3 * sqrtFn (sampleVariance (measure_baseline_no_delay envBase 10))) * 1.5 <
    listMean (measure_with_delay envProbe d 5)

/-- Every pair collected by the candidate loop is a detectable candidate
paired with its mean elevation over the baseline. -/
theorem mem_delayLoop (envProbe : ℚ → Nat → ℚ) (bm md maxd step : ℚ) :
    ∀ (fuel : Nat) (current : ℚ) (pr : ℚ × ℚ),
      pr ∈ delayLoop envProbe bm md maxd step fuel current →
      (∃ i : Nat, pr.1 = current + i * step) ∧ pr.1 ≤ maxd ∧
        md * 1.5 < listMean (measure_with_delay envProbe pr.1 5) := by
  intro fuel
  induction fuel with
  | zero => intro current pr hpr; simp [delayLoop] at hpr
  | succ n ih =>
    intro current pr hpr
    simp only [delayLoop] at hpr
    split_ifs at hpr with hle hdet
    · rcases List.mem_append.mp hpr with hpr | hpr
      · simp only [List.mem_singleton] at hpr
        subst hpr
        exact ⟨⟨0, by push_cast; ring⟩, hle, hdet⟩
      · obtain ⟨⟨i, hi⟩, hle2, hdet2⟩ := ih (current + step) pr hpr
        exact ⟨⟨i + 1, by rw [hi]; push_cast; ring⟩, hle2, hdet2⟩
    · simp only [List.nil_append] at hpr
      obtain ⟨⟨i, hi⟩, hle2, hdet2⟩ := ih (current + step) pr hpr
      exact ⟨⟨i + 1, by rw [hi]; push_cast; ring⟩, hle2, hdet2⟩
    · simp at hpr

/-- Every detectable candidate within the fuel budget is collected by
the candidate loop. -/
theorem delayLoop_complete (envProbe : ℚ → Nat → ℚ) (bm md maxd step : ℚ) :
    ∀ (fuel i : Nat) (current : ℚ), i < fuel →
      current + i * step ≤ maxd → 0 < step →
      md * 1.5 < listMean (measure_with_delay envProbe (current + i * step) 5) →
      (current + i * step,
        listMean (measure_with_delay envProbe (current + i * step) 5) - bm) ∈
        delayLoop envProbe bm md maxd step fuel current := by
  intro fuel
  induction fuel with
  | zero => intro i current hif; omega
  | succ n ih =>
    intro i current hif hle hstep hdet
    have hcur : current ≤ maxd := by
      have hnn : (0 : ℚ) ≤ (i : ℚ) * step := by positivity
      linarith
    simp only [delayLoop, if_pos hcur]
    cases i with
    | zero =>
      simp only [Nat.cast_zero, zero_mul, add_zero] at hle hdet ⊢
      rw [if_pos hdet]
      exact List.mem_append_left _ (List.mem_singleton_self _)
    | succ j =>
      have heq : current + ((j + 1 : Nat) : ℚ) * step =
          (current + step) + (j : ℚ) * step := by push_cast; ring
      rw [heq] at hle hdet ⊢
      exact List.mem_append_right _
        (ih j (current + step) (by omega) hle hstep hdet)

theorem minByFst_mem (p : ℚ × ℚ) (rest : List (ℚ × ℚ)) :
    minByFst p rest ∈ p :: rest := by
  induction rest generalizing p with
  | nil => simp [minByFst]
  | cons x xs ih =>
    have hfold : minByFst p (x :: xs) =
        minByFst (if x.1 < p.1 then x else p) xs := rfl
    rw [hfold]
    rcases List.mem_cons.mp (ih (if x.1 < p.1 then x else p)) with h | h
    · rw [h]
      split_ifs
      · exact List.mem_cons_of_mem _ (List.mem_cons_self _ _)
      · exact List.mem_cons_self _ _
    · exact List.mem_cons_of_mem _ (List.mem_cons_of_mem _ h)

theorem minByFst_le (p : ℚ × ℚ) (rest : List (ℚ × ℚ)) :
    ∀ q ∈ p :: rest, (minByFst p rest).1 ≤ q.1 := by
  induction rest generalizing p with
  | nil =>
    intro q hq
    simp only [List.mem_singleton] at hq
    subst hq
    exact le_refl _
  | cons x xs ih =>
    intro q hq
    have hfold : minByFst p (x :: xs) =
        minByFst (if x.1 < p.1 then x else p) xs := rfl
    rw [hfold]
    have hhead : (if x.1 < p.1 then x else p).1 ≤ p.1 ∧
        (if x.1 < p.1 then x else p).1 ≤ x.1 := by
      split_ifs with hxp
      · exact ⟨le_of_lt hxp, le_refl _⟩
      · exact ⟨le_refl _, le_of_not_lt hxp⟩
    have hmin := ih (if x.1 < p.1 then x else p)
    rcases List.mem_cons.mp hq with rfl | hq2
    · exact le_trans (hmin _ (List.mem_cons_self _ _)) hhead.1
    · rcases List.mem_cons.mp hq2 with rfl | hq3
      · exact le_trans (hmin _ (List.mem_cons_self _ _)) hhead.2
      · exact hmin _ (List.mem_cons_of_mem _ hq3)

/-- The fuel `⌊(max - min) / step⌋ + 1` used by `detect_optimal_delay`
covers every candidate index when the step is positive. -/
theorem fuel_covers (min_delay maxd step : ℚ) (hstep : 0 < step) (i : Nat)
    (hle : min_delay + i * step ≤ maxd) :
    i < ((maxd - min_delay) / step).floor.toNat + 1 := by
  have h1 : (i : ℚ) * step ≤ maxd - min_delay := by linarith
  have h2 : (i : ℚ) ≤ (maxd - min_delay) / step := (le_div_iff₀ hstep).mpr h1
  have h3 : (i : Int) ≤ ((maxd - min_delay) / step).floor := by
    rw [Rat.le_floor]
    exact_mod_cast h2
  omega

/-- Method `detect_optimal_delay` with the 10-sample baseline's length guard
resolved. -/
theorem detect_optimal_delay_eq (sqrtFn : ℚ → ℚ) (envBase : Nat → ℚ)
    (envProbe : ℚ → Nat → ℚ) (idel mind maxd step : ℚ) :
    detect_optimal_delay sqrtFn envBase envProbe idel mind maxd step =
      match delayLoop envProbe (listMean (measure_baseline_no_delay envBase 10))
          (listMean (measure_baseline_no_delay envBase 10) +
            3 * sqrtFn (sampleVariance (measure_baseline_no_delay envBase 10)))
          maxd step (((maxd - mind) / step).floor.toNat + 1) mind with
      | [] => idel
      | p :: rest => (minByFst p rest).1 := by
  have hlen : (measure_baseline_no_delay envBase 10).length = 10 := by
    simp [measure_baseline_no_delay]
  simp only [detect_optimal_delay, hlen, if_pos (show (1 : Nat) < 10 from by omega)]

/-- The general behaviour of the calibrator, split out of the C5
theorem: with no detectable candidate the configured fallback is
returned; otherwise the returned delay is the smallest detectable
candidate. -/
theorem detect_optimal_delay_general (sqrtFn : ℚ → ℚ) (envBase : Nat → ℚ)
    (envProbe : ℚ → Nat → ℚ) (initial_delay min_delay max_delay step : ℚ)
    (hstep : 0 < step) :
    ((∀ d : ℚ, isCandidateDelay min_delay max_delay step d →
        ¬ isDetectable sqrtFn envBase envProbe d) →
      detect_optimal_delay sqrtFn envBase envProbe initial_delay min_delay
        max_delay step = initial_delay) ∧
    (∀ d0 : ℚ, isCandidateDelay min_delay max_delay step d0 →
      isDetectable sqrtFn envBase envProbe d0 →
      isCandidateDelay min_delay max_delay step
        (detect_optimal_delay sqrtFn envBase envProbe initial_delay min_delay
          max_delay step) ∧
      isDetectable sqrtFn envBase envProbe
        (detect_optimal_delay sqrtFn envBase envProbe initial_delay min_delay
          max_delay step) ∧
      ∀ d : ℚ, isCandidateDelay min_delay max_delay step d →
        isDetectable sqrtFn envBase envProbe d →
        detect_optimal_delay sqrtFn envBase envProbe initial_delay min_delay
          max_delay step ≤ d) := by
  rw [detect_optimal_delay_eq]
  cases hL : delayLoop envProbe (listMean (measure_baseline_no_delay envBase 10))
      (listMean (measure_baseline_no_delay envBase 10) +
        3 * sqrtFn (sampleVariance (measure_baseline_no_delay envBase 10)))
      max_delay step (((max_delay - min_delay) / step).floor.toNat + 1)
      min_delay with
  | nil =>
    refine ⟨fun _ => rfl, fun d0 hcand hdet => ?_⟩
    exfalso
    obtain ⟨⟨i, hi⟩, hle⟩ := hcand
    have hin := delayLoop_complete envProbe
      (listMean (measure_baseline_no_delay envBase 10))
      (listMean (measure_baseline_no_delay envBase 10) +
        3 * sqrtFn (sampleVariance (measure_baseline_no_delay envBase 10)))
      max_delay step (((max_delay - min_delay) / step).floor.toNat + 1) i
      min_delay (fuel_covers min_delay max_delay step hstep i (hi ▸ hle))
      (hi ▸ hle) hstep (hi ▸ hdet)
    rw [hL] at hin
    exact List.not_mem_nil _ hin
  | cons p rest =>
    constructor
    · intro hnone
      exfalso
      have hp := mem_delayLoop envProbe _ _ max_delay step _ min_delay p
        (hL ▸ List.mem_cons_self p rest)
      exact hnone p.1 ⟨hp.1, hp.2.1⟩ hp.2.2
    · intro d0 hcand hdet
      have hmem := minByFst_mem p rest
      have hprop := mem_delayLoop envProbe _ _ max_delay step _ min_delay
        (minByFst p rest) (hL ▸ hmem)
      refine ⟨⟨hprop.1, hprop.2.1⟩, hprop.2.2, ?_⟩
      intro d hdc hdd
      obtain ⟨⟨i, hi⟩, hle⟩ := hdc
      have hin := delayLoop_complete envProbe
        (listMean (measure_baseline_no_delay envBase 10))
        (listMean (measure_baseline_no_delay envBase 10) +
          3 * sqrtFn (sampleVariance (measure_baseline_no_delay envBase 10)))
        max_delay step (((max_delay - min_delay) / step).floor.toNat + 1) i
        min_delay (fuel_covers min_delay max_delay step hstep i (hi ▸ hle))
        (hi ▸ hle) hstep (hi ▸ hdd)
      rw [← hi, hL] at hin
      have := minByFst_le p rest _ hin
      simpa using this

/-- The specification's calibration scenario: two baseline samples of
0.13 s, two of 0.07 s, six of 0.10 s — exact mean 0.1 s and exact sample
standard deviation 0.02 s. -/
def scenarioBase : Nat → ℚ := fun i =>
  if i < 2 then 13 / 100 else if i < 4 then 7 / 100 else 1 / 10

/-- A square-root function correct at the one variance value the
scenario produces: `(0.02)² = 1/2500`. -/
def scenarioSqrt : ℚ → ℚ := fun q => if q = 1 / 2500 then 1 / 50 else 0

/-- Probe timings giving means 0.6, 1.1, 1.6, 2.1 for the candidate
delays 0.5, 1.0, 1.5, 2.0. -/
def scenarioProbe : ℚ → Nat → ℚ := fun d _ => d + 1 / 10

theorem scenario_mean :
    listMean (measure_baseline_no_delay scenarioBase 10) = 1 / 10 := by
  norm_num [measure_baseline_no_delay, List.range_succ, scenarioBase, listMean]

theorem scenario_variance :
    sampleVariance (measure_baseline_no_delay scenarioBase 10) = 1 / 2500 := by
  norm_num [measure_baseline_no_delay, List.range_succ, scenarioBase,
    sampleVariance, listMean]

theorem scenario_probe_mean (d : ℚ) :
    listMean (measure_with_delay scenarioProbe d 5) = d + 1 / 10 := by
  norm_num [measure_with_delay, List.range_succ, scenarioProbe, listMean]
  ring

/-- C5: the calibrator deems a candidate detectable iff its 5-sample
probe mean strictly exceeds `1.5·(μ0 + 3·σ0)` over the 10-sample
baseline, returns the smallest detectable candidate, and the configured
fallback (default 1.0 s) when none is detectable; in the concrete
scenario — baseline mean 0.1, stdev 0.02, candidates
{0.5, 1.0, 1.5, 2.0} with probe means {0.6, 1.1, 1.6, 2.1} — it returns
0.5. -/
theorem detect_optimal_delay_spec (sqrtFn : ℚ → ℚ) (envBase : Nat → ℚ)
    (envProbe : ℚ → Nat → ℚ) (initial_delay min_delay max_delay step : ℚ)
    (hstep : 0 < step) :
    (((∀ d : ℚ, isCandidateDelay min_delay max_delay step d →
        ¬ isDetectable sqrtFn envBase envProbe d) →
      detect_optimal_delay sqrtFn envBase envProbe initial_delay min_delay
        max_delay step = initial_delay) ∧
    (∀ d0 : ℚ, isCandidateDelay min_delay max_delay step d0 →
      isDetectable sqrtFn envBase envProbe d0 →
      isCandidateDelay min_delay max_delay step
        (detect_optimal_delay sqrtFn envBase envProbe initial_delay min_delay
          max_delay step) ∧
      isDetectable sqrtFn envBase envProbe
        (detect_optimal_delay sqrtFn envBase envProbe initial_delay min_delay
          max_delay step) ∧
      ∀ d : ℚ, isCandidateDelay min_delay max_delay step d →
        isDetectable sqrtFn envBase envProbe d →
        detect_optimal_delay sqrtFn envBase envProbe initial_delay min_delay
          max_delay step ≤ d)) ∧
    detect_optimal_delay scenarioSqrt scenarioBase scenarioProbe 1 (1 / 2) 2
      (1 / 2) = 1 / 2 := by
  refine ⟨detect_optimal_delay_general sqrtFn envBase envProbe initial_delay
    min_delay max_delay step hstep, ?_⟩
  have hgen := detect_optimal_delay_general scenarioSqrt scenarioBase
    scenarioProbe 1 (1 / 2) 2 (1 / 2) (by norm_num)
  have hdet0 : isDetectable scenarioSqrt scenarioBase scenarioProbe (1 / 2) := by
    unfold isDetectable
    rw [scenario_mean, scenario_variance, scenario_probe_mean]
    norm_num [scenarioSqrt]
  have hcand0 : isCandidateDelay (1 / 2) 2 (1 / 2) (1 / 2) :=
    ⟨⟨0, by norm_num⟩, by norm_num⟩
  obtain ⟨⟨⟨i, hi⟩, _⟩, _, hmin⟩ := hgen.2 (1 / 2) hcand0 hdet0
  have hle := hmin (1 / 2) hcand0 hdet0
  have hge : (1 : ℚ) / 2 ≤ detect_optimal_delay scenarioSqrt scenarioBase
      scenarioProbe 1 (1 / 2) 2 (1 / 2) := by
    rw [hi]
    have : (0 : ℚ) ≤ (i : ℚ) * (1 / 2) := by positivity
    linarith
  linarith

/-- Witness for C5 (the theorem's only top-level hypothesis is
`0 < step`): the scenario conjunct at a concrete instantiation. -/
theorem detect_optimal_delay_spec_witness :
    detect_optimal_delay scenarioSqrt scenarioBase scenarioProbe 1 (1 / 2) 2
      (1 / 2) = 1 / 2 :=
  (detect_optimal_delay_spec (fun q => q) (fun _ => 0) (fun _ _ => 0) 1 0 1 1
    (by norm_num)).2

end StatSqli
